import Mathlib

/-!
Verification of the sealed-Merkle manifest pipeline of `generate_manifest.py`.

The embedding below translates the core of the script:
  * `sha3`       — SHA3-256 (`hashlib.sha3_256(b).digest()`), implemented
                   concretely as Keccak-f[1600] with rate 1088 so that every
                   definition is executable;
  * `merkle_root`— the duplicate-last-odd-node Merkle fold;
  * `int_mod`    — big-endian integer value of a byte string, reduced mod `m`;
  * `find_nonce_for_mod19` — the bounded ascending nonce search
                   (Python's `raise RuntimeError` is modelled as `none`);
  * `mkEntry`, `build_torah_entries`, `build_quran_entries`
                 — the per-unit manifest-entry construction of
                   `build_torah_manifest` / `build_quran_manifest`
                   (stdout warnings are modelled as a returned list of
                   strings; a propagated exception is modelled as `none`).

Bytes are `List Nat`; verses are carried as their (already NFC-normalised)
UTF-8 byte strings, which is the form in which the script hashes them.
-/

set_option maxRecDepth 1000000

namespace Manifest

/-- Byte strings: each element is one byte value. -/
abbrev Bytes := List Nat

/-! ### SHA3-256 (Keccak-f[1600], rate 1088 bits / 136 bytes)

The 1600-bit Keccak state, unrolled into 25 named 64-bit lanes so that the
kernel can evaluate hashes by pure machine-integer arithmetic; lane `(x, y)`
of FIPS 202 is the field `a<x + 5*y>`. -/

structure KState where
  a0 : Nat
  a1 : Nat
  a2 : Nat
  a3 : Nat
  a4 : Nat
  a5 : Nat
  a6 : Nat
  a7 : Nat
  a8 : Nat
  a9 : Nat
  a10 : Nat
  a11 : Nat
  a12 : Nat
  a13 : Nat
  a14 : Nat
  a15 : Nat
  a16 : Nat
  a17 : Nat
  a18 : Nat
  a19 : Nat
  a20 : Nat
  a21 : Nat
  a22 : Nat
  a23 : Nat
  a24 : Nat
deriving DecidableEq

/-- Keccak round constants. -/
def RC : List Nat :=
  [0x0000000000000001, 0x0000000000008082, 0x800000000000808a,
   0x8000000080008000, 0x000000000000808b, 0x0000000080000001,
   0x8000000080008081, 0x8000000000008009, 0x000000000000008a,
   0x0000000000000088, 0x0000000080008009, 0x000000008000000a,
   0x000000008000808b, 0x800000000000008b, 0x8000000000008089,
   0x8000000000008003, 0x8000000000008002, 0x8000000000000080,
   0x000000000000800a, 0x800000008000000a, 0x8000000080008081,
   0x8000000000008080, 0x0000000080000001, 0x8000000080008008]

/-- Rotate a 64-bit word left by `n` (for `n ≤ 63`). -/
def rotl64 (w n : Nat) : Nat := ((w <<< n) ||| (w >>> (64 - n))) % (2 ^ 64)

/-- Bitwise complement of a 64-bit word. -/
def not64 (w : Nat) : Nat := (2 ^ 64 - 1) ^^^ w

/-- One Keccak-f[1600] round (theta, rho, pi, chi, iota) on the unrolled
25-lane state; `rc` is the round constant.  Lane `(x, y)` is field
`a<x + 5*y>`, rotation offsets and the pi permutation are inlined per
lane from FIPS 202. -/
def keccakRound (rc : Nat) (s : KState) : KState :=
  let c0 := s.a0 ^^^ s.a5 ^^^ s.a10 ^^^ s.a15 ^^^ s.a20
  let c1 := s.a1 ^^^ s.a6 ^^^ s.a11 ^^^ s.a16 ^^^ s.a21
  let c2 := s.a2 ^^^ s.a7 ^^^ s.a12 ^^^ s.a17 ^^^ s.a22
  let c3 := s.a3 ^^^ s.a8 ^^^ s.a13 ^^^ s.a18 ^^^ s.a23
  let c4 := s.a4 ^^^ s.a9 ^^^ s.a14 ^^^ s.a19 ^^^ s.a24
  let d0 := c4 ^^^ rotl64 c1 1
  let d1 := c0 ^^^ rotl64 c2 1
  let d2 := c1 ^^^ rotl64 c3 1
  let d3 := c2 ^^^ rotl64 c4 1
  let d4 := c3 ^^^ rotl64 c0 1
  let t0 := s.a0 ^^^ d0
  let t1 := s.a1 ^^^ d1
  let t2 := s.a2 ^^^ d2
  let t3 := s.a3 ^^^ d3
  let t4 := s.a4 ^^^ d4
  let t5 := s.a5 ^^^ d0
  let t6 := s.a6 ^^^ d1
  let t7 := s.a7 ^^^ d2
  let t8 := s.a8 ^^^ d3
  let t9 := s.a9 ^^^ d4
  let t10 := s.a10 ^^^ d0
  let t11 := s.a11 ^^^ d1
  let t12 := s.a12 ^^^ d2
  let t13 := s.a13 ^^^ d3
  let t14 := s.a14 ^^^ d4
  let t15 := s.a15 ^^^ d0
  let t16 := s.a16 ^^^ d1
  let t17 := s.a17 ^^^ d2
  let t18 := s.a18 ^^^ d3
  let t19 := s.a19 ^^^ d4
  let t20 := s.a20 ^^^ d0
  let t21 := s.a21 ^^^ d1
  let t22 := s.a22 ^^^ d2
  let t23 := s.a23 ^^^ d3
  let t24 := s.a24 ^^^ d4
  let b0 := t0
  let b1 := rotl64 t6 44
  let b2 := rotl64 t12 43
  let b3 := rotl64 t18 21
  let b4 := rotl64 t24 14
  let b5 := rotl64 t3 28
  let b6 := rotl64 t9 20
  let b7 := rotl64 t10 3
  let b8 := rotl64 t16 45
  let b9 := rotl64 t22 61
  let b10 := rotl64 t1 1
  let b11 := rotl64 t7 6
  let b12 := rotl64 t13 25
  let b13 := rotl64 t19 8
  let b14 := rotl64 t20 18
  let b15 := rotl64 t4 27
  let b16 := rotl64 t5 36
  let b17 := rotl64 t11 10
  let b18 := rotl64 t17 15
  let b19 := rotl64 t23 56
  let b20 := rotl64 t2 62
  let b21 := rotl64 t8 55
  let b22 := rotl64 t14 39
  let b23 := rotl64 t15 41
  let b24 := rotl64 t21 2
  let e0 := (b0 ^^^ (not64 b1 &&& b2)) ^^^ rc
  let e1 := b1 ^^^ (not64 b2 &&& b3)
  let e2 := b2 ^^^ (not64 b3 &&& b4)
  let e3 := b3 ^^^ (not64 b4 &&& b0)
  let e4 := b4 ^^^ (not64 b0 &&& b1)
  let e5 := b5 ^^^ (not64 b6 &&& b7)
  let e6 := b6 ^^^ (not64 b7 &&& b8)
  let e7 := b7 ^^^ (not64 b8 &&& b9)
  let e8 := b8 ^^^ (not64 b9 &&& b5)
  let e9 := b9 ^^^ (not64 b5 &&& b6)
  let e10 := b10 ^^^ (not64 b11 &&& b12)
  let e11 := b11 ^^^ (not64 b12 &&& b13)
  let e12 := b12 ^^^ (not64 b13 &&& b14)
  let e13 := b13 ^^^ (not64 b14 &&& b10)
  let e14 := b14 ^^^ (not64 b10 &&& b11)
  let e15 := b15 ^^^ (not64 b16 &&& b17)
  let e16 := b16 ^^^ (not64 b17 &&& b18)
  let e17 := b17 ^^^ (not64 b18 &&& b19)
  let e18 := b18 ^^^ (not64 b19 &&& b15)
  let e19 := b19 ^^^ (not64 b15 &&& b16)
  let e20 := b20 ^^^ (not64 b21 &&& b22)
  let e21 := b21 ^^^ (not64 b22 &&& b23)
  let e22 := b22 ^^^ (not64 b23 &&& b24)
  let e23 := b23 ^^^ (not64 b24 &&& b20)
  let e24 := b24 ^^^ (not64 b20 &&& b21)
  KState.mk e0 e1 e2 e3 e4 e5 e6 e7 e8 e9 e10 e11 e12 e13 e14 e15 e16 e17 e18 e19 e20 e21 e22 e23 e24

/-- The Keccak-f[1600] permutation: 24 rounds. -/
def keccakF (s : KState) : KState := RC.foldl (fun st rc => keccakRound rc st) s

/-- A lane from up to 8 bytes, little-endian. -/
def bytesToLane (bs : Bytes) : Nat := bs.foldr (fun b acc => acc * 256 + b) 0

/-- Lane `i` of a 136-byte block (bytes `8*i` to `8*i + 7`, little-endian). -/
def laneAt (block : Bytes) (i : Nat) : Nat := bytesToLane ((block.drop (8 * i)).take 8)

/-- The 8 bytes of a lane, little-endian. -/
def laneToBytes (w : Nat) : Bytes := (List.range 8).map fun i => (w >>> (8 * i)) % 256

/-- SHA3 pad10*1 padding with domain suffix `0x06`, to a multiple of 136 bytes. -/
def padSha3 (msg : Bytes) : Bytes :=
  let padlen := 136 - msg.length % 136
  if padlen = 1 then msg ++ [0x86]
  else msg ++ [0x06] ++ List.replicate (padlen - 2) 0 ++ [0x80]

/-- Xor one 136-byte block into the first 17 lanes (rate 1088) and permute. -/
def absorbBlock (st : KState) (block : Bytes) : KState :=
  keccakF (KState.mk
    (st.a0 ^^^ laneAt block 0) (st.a1 ^^^ laneAt block 1) (st.a2 ^^^ laneAt block 2)
    (st.a3 ^^^ laneAt block 3) (st.a4 ^^^ laneAt block 4) (st.a5 ^^^ laneAt block 5)
    (st.a6 ^^^ laneAt block 6) (st.a7 ^^^ laneAt block 7) (st.a8 ^^^ laneAt block 8)
    (st.a9 ^^^ laneAt block 9) (st.a10 ^^^ laneAt block 10) (st.a11 ^^^ laneAt block 11)
    (st.a12 ^^^ laneAt block 12) (st.a13 ^^^ laneAt block 13) (st.a14 ^^^ laneAt block 14)
    (st.a15 ^^^ laneAt block 15) (st.a16 ^^^ laneAt block 16)
    st.a17 st.a18 st.a19 st.a20 st.a21 st.a22 st.a23 st.a24)

/-- The all-zero initial sponge state. -/
def kZero : KState :=
  KState.mk 0 0 0 0 0 0 0 0 0 0 0 0 0 0 0 0 0 0 0 0 0 0 0 0 0

/-- Absorb a padded message block by block.  The fuel argument (instantiated
with the message length, an upper bound on the number of blocks) makes the
recursion structural, hence kernel-reducible. -/
def absorbChunks : Nat → KState → Bytes → KState
  | 0, st, _ => st
  | _ + 1, st, [] => st
  | fuel + 1, st, m => absorbChunks fuel (absorbBlock st (m.take 136)) (m.drop 136)

/-- SHA3-256 of a byte string: absorb the padded message into the all-zero
state, then squeeze the first 32 bytes.  This is the embedding of the
script\'s `sha3` (`hashlib.sha3_256(b).digest()`). -/
def sha3 (msg : Bytes) : Bytes :=
  let padded := padSha3 msg
  let st := absorbChunks padded.length kZero padded
  laneToBytes st.a0 ++ laneToBytes st.a1 ++ laneToBytes st.a2 ++ laneToBytes st.a3

/-! ### Big-endian integers and the nonce search -/

/-- Big-endian unsigned integer value of a byte string
(`int.from_bytes(b, "big")`). -/
def int_be (b : Bytes) : Nat := b.foldl (fun acc x => acc * 256 + x) 0

/-- `int_mod` of the script: big-endian value reduced mod `m`. -/
def int_mod (b : Bytes) (m : Nat) : Nat := int_be b % m

/-- `n.to_bytes(len, "big")`: fixed-width big-endian encoding. -/
def toBytesBE (len n : Nat) : Bytes :=
  (List.range len).map fun i => (n >>> (8 * (len - 1 - i))) % 256

/-- The `for nonce in range(limit)` loop of `find_nonce_for_mod19`: try
`nonce, nonce + 1, …` with `fuel` candidates left (`nonce + fuel = limit`
throughout, so exactly the candidates `0, …, limit - 1` are tried, in
ascending order). -/
def findNonceFuel (root : Bytes) : Nat → Nat → Option (Nat × Bytes)
  | _, 0 => none
  | nonce, fuel + 1 =>
    let h := sha3 (root ++ toBytesBE 8 nonce)
    if int_mod h 19 = 0 then some (nonce, h)
    else findNonceFuel root (nonce + 1) fuel

/-- `find_nonce_for_mod19(root, limit)`; `none` models the raised
`RuntimeError` (the spec's ExhaustionError). -/
def find_nonce_for_mod19 (root : Bytes) (limit : Nat) : Option (Nat × Bytes) :=
  findNonceFuel root 0 limit

/-! ### Merkle tree -/

/-- One pass of the `for i in range(0, len(layer), 2)` loop: hash consecutive
pairs `sha3(left + right)`, an odd trailing element being paired with
itself. -/
def nextLayer : List Bytes → List Bytes
  | [] => []
  | [x] => [sha3 (x ++ x)]
  | x :: y :: rest => sha3 (x ++ y) :: nextLayer rest

/-- The `while len(layer) > 1` loop, with structural fuel; the fuel is
instantiated with the initial layer length, which bounds the iteration
count (each pass at least halves a layer of length ≥ 2). -/
def merkleLoop : Nat → List Bytes → List Bytes
  | 0, layer => layer
  | fuel + 1, layer =>
    if 1 < layer.length then merkleLoop fuel (nextLayer layer) else layer

/-- `merkle_root` of the script.  The `headD` default is never reached: the
loop maps a non-empty layer to a non-empty layer. -/
def merkle_root (leaves : List Bytes) : Bytes :=
  if leaves.isEmpty then sha3 []
  else (merkleLoop leaves.length leaves).headD []

/-! ### Hex encoding and manifest entries -/

/-- The two lowercase hex digits of one byte. -/
def byteHex (x : Nat) : List Char := [Nat.digitChar (x / 16), Nat.digitChar (x % 16)]

/-- `bytes.hex()` (the script's `hhex`): lowercase hex string. -/
def hhex (b : Bytes) : String := String.mk ((b.map byteHex).flatten)

/-- One manifest entry as emitted per unit.  `root_hex` stands for
`chapter_root_hex` (Qur'an) / `sidra_root_hex` (Torah); the remaining
fields keep the JSON key names. -/
structure UnitManifestEntry where
  name : String
  verse_count : Nat
  verse_hashes_hex : List String
  root_hex : String
  nonce_uint64 : Nat
  sealed_root_hex : String
  sealed_root_mod19 : Nat
deriving DecidableEq, Repr

/-- The shared per-unit body of both builders, on the unit's (already
NFC-normalised, UTF-8 encoded) verses: leaf hashes, Merkle root, nonce
search at the default limit 2000000, and the packaged entry.  `none`
models the nonce-search exception propagating out of the builder. -/
def mkEntry (name : String) (verses : List Bytes) : Option UnitManifestEntry :=
  let verse_hashes := verses.map sha3
  let root := merkle_root verse_hashes
  match find_nonce_for_mod19 root 2000000 with
  | none => none
  | some (nonce, sealed) =>
    some (UnitManifestEntry.mk name verses.length (verse_hashes.map hhex)
      (hhex root) nonce (hhex sealed) (int_mod sealed 19))

/-- The warning `build_torah_manifest` prints for an empty unit. -/
def emptyUnitWarning (ref : String) : String :=
  "WARNING: No verses retrieved for " ++ ref

/-- The `for ref in sidrot_list` loop of `build_torah_manifest`, taking each
unit together with its fetched verses: an empty unit is logged and skipped,
every other unit contributes its entry in order.  The first component
models the warnings printed to stdout. -/
def build_torah_entries :
    List (String × List Bytes) → Option (List String × List UnitManifestEntry)
  | [] => some ([], [])
  | (ref, verses) :: rest =>
    if verses.isEmpty then
      (build_torah_entries rest).map fun p => (emptyUnitWarning ref :: p.1, p.2)
    else
      match mkEntry ref verses with
      | none => none
      | some e => (build_torah_entries rest).map fun p => (p.1, e :: p.2)

/-- `sorted(chapters, key=lambda x: int(x))`: the grouped chapters, keyed by
sura number, in ascending numeric order. -/
def sortChapters (chapters : List (Nat × List Bytes)) : List (Nat × List Bytes) :=
  List.insertionSort (fun a b => a.1 ≤ b.1) chapters

/-- The `for sura in sorted(chapters, key=int)` loop of
`build_quran_manifest`. -/
def quranEntriesLoop : List (Nat × List Bytes) → Option (List UnitManifestEntry)
  | [] => some []
  | (sura, verses) :: rest =>
    match mkEntry ("Sura " ++ toString sura) verses with
    | none => none
    | some e => (quranEntriesLoop rest).map fun es => e :: es

/-- The entry-building part of `build_quran_manifest`, from the grouped
`chapters` map (sura number ↦ verses, each chapter non-empty by
construction of the parse loop). -/
def build_quran_entries (chapters : List (Nat × List Bytes)) :
    Option (List UnitManifestEntry) :=
  quranEntriesLoop (sortChapters chapters)

/-! ### Heap model of `merkle_root`, for the frame property

Python lists are mutable objects, so "the argument list is unchanged" is a
statement about a heap.  We model a heap of list-of-bytes cells (addresses
are indices, allocation appends a cell; `bytes` values themselves are
immutable) and translate the body of `merkle_root` against it:
`layer = leaves[:]` allocates a copy, each `while` iteration allocates
`nxt = []` and grows it by `append`, and `layer = nxt` only rebinds the
local. -/

/-- A heap of Python list-of-bytes objects. -/
abbrev Heap := List (List Bytes)

/-- The inner `for` loop on the heap: `nxt.append(sha3(left + right))` for
each consecutive pair, the odd trailing element paired with itself.  Only
the cell at `nxtAddr` is written. -/
def appendPairs (heap : Heap) (nxtAddr : Nat) : List Bytes → Heap
  | [] => heap
  | [x] => heap.set nxtAddr (heap.getD nxtAddr [] ++ [sha3 (x ++ x)])
  | x :: y :: rest =>
    appendPairs (heap.set nxtAddr (heap.getD nxtAddr [] ++ [sha3 (x ++ y)])) nxtAddr rest

/-- The `while len(layer) > 1` loop on the heap: allocate `nxt = []`, run
the `for` loop, rebind `layer` to `nxt`.  Returns the final heap and the
address `layer` ends at. -/
def merkleLoopH : Nat → Heap → Nat → Heap × Nat
  | 0, heap, layerAddr => (heap, layerAddr)
  | fuel + 1, heap, layerAddr =>
    let layer := heap.getD layerAddr []
    if 1 < layer.length then
      let nxtAddr := heap.length
      let heap1 := heap ++ [[]]
      merkleLoopH fuel (appendPairs heap1 nxtAddr layer) nxtAddr
    else (heap, layerAddr)

/-- `merkle_root` on the heap: the argument is the address of the caller's
`leaves` object; returns the updated heap and the returned root. -/
def merkleRootH (heap : Heap) (leavesAddr : Nat) : Heap × Bytes :=
  let leaves := heap.getD leavesAddr []
  if leaves.isEmpty then (heap, sha3 [])
  else
    let layerAddr := heap.length
    let p := merkleLoopH leaves.length (heap ++ [leaves]) layerAddr
    (p.1, (p.1.getD p.2 []).headD [])

/-! ## Lemmas about the nonce search -/

/-- Soundness of the fueled loop: a returned pair is the hash of the
returned nonce, its residue is 0, the nonce lies in the scanned window,
and every earlier candidate of the window fails the test. -/
lemma findNonceFuel_eq_some {root : Bytes} :
    ∀ fuel nonce n d, findNonceFuel root nonce fuel = some (n, d) →
      nonce ≤ n ∧ n < nonce + fuel ∧
      d = sha3 (root ++ toBytesBE 8 n) ∧ int_mod d 19 = 0 ∧
      ∀ m, nonce ≤ m → m < n → int_mod (sha3 (root ++ toBytesBE 8 m)) 19 ≠ 0 := by
  intro fuel
  induction fuel with
  | zero => intro nonce n d h; simp [findNonceFuel] at h
  | succ fuel ih =>
    intro nonce n d h
    simp only [findNonceFuel] at h
    split at h
    case isTrue hc =>
      simp only [Option.some.injEq, Prod.mk.injEq] at h
      obtain ⟨rfl, rfl⟩ := h
      exact ⟨le_refl _, by omega, rfl, hc, fun m hm hmn => absurd hmn (by omega)⟩
    case isFalse hc =>
      obtain ⟨h1, h2, h3, h4, h5⟩ := ih (nonce + 1) n d h
      refine ⟨by omega, by omega, h3, h4, fun m hm hmn => ?_⟩
      rcases Nat.lt_or_ge m (nonce + 1) with hlt | hge
      · have : m = nonce := by omega
        subst this; exact hc
      · exact h5 m hge hmn

/-- The fueled loop returns `none` exactly when every candidate of the
scanned window fails the test. -/
lemma findNonceFuel_eq_none {root : Bytes} :
    ∀ fuel nonce, (findNonceFuel root nonce fuel = none ↔
      ∀ m, nonce ≤ m → m < nonce + fuel →
        int_mod (sha3 (root ++ toBytesBE 8 m)) 19 ≠ 0) := by
  intro fuel
  induction fuel with
  | zero =>
    intro nonce
    simp only [findNonceFuel]
    exact ⟨fun _ m hm hmn => absurd hmn (by omega), fun _ => trivial⟩
  | succ fuel ih =>
    intro nonce
    simp only [findNonceFuel]
    split
    case isTrue hc =>
      constructor
      · intro h; exact absurd h (by simp)
      · intro h; exact absurd hc (h nonce (le_refl _) (by omega))
    case isFalse hc =>
      rw [ih (nonce + 1)]
      constructor
      · intro h m hm hmn
        rcases Nat.lt_or_ge m (nonce + 1) with hlt | hge
        · have : m = nonce := by omega
          subst this; exact hc
        · exact h m hge (by omega)
      · intro h m hm hmn
        exact h m (by omega) (by omega)

/-! ## The claims -/

/-- **C1.** Whenever `find_nonce_for_mod19` returns a pair `(n, digest)`,
the digest is `sha3(root ++ n as 8 bytes big-endian)`, its big-endian value
is ≡ 0 mod 19, `n` lies in `[0, limit)`, and `n` is the smallest
nonnegative integer whose digest passes the test (candidates are tried in
ascending order from 0). -/
theorem find_nonce_for_mod19_correct (root : Bytes) (limit n : Nat) (d : Bytes)
    (h : find_nonce_for_mod19 root limit = some (n, d)) :
    d = sha3 (root ++ toBytesBE 8 n) ∧ int_mod d 19 = 0 ∧ n < limit ∧
      ∀ m, m < n → int_mod (sha3 (root ++ toBytesBE 8 m)) 19 ≠ 0 := by
  obtain ⟨_, h2, h3, h4, h5⟩ := findNonceFuel_eq_some limit 0 n d h
  exact ⟨h3, h4, by omega, fun m hm => h5 m (Nat.zero_le m) hm⟩

/-- Witness for C1 at the all-zero 32-byte root, whose least sealing nonce
is 27. -/
theorem find_nonce_for_mod19_correct_witness :
    [234, 9, 99, 134, 63, 219, 85, 101, 111, 181, 62, 129, 187, 220, 148, 44,
     16, 9, 159, 188, 109, 31, 226, 153, 104, 114, 132, 201, 115, 223, 191, 206] =
        sha3 (List.replicate 32 0 ++ toBytesBE 8 27) ∧
      int_mod [234, 9, 99, 134, 63, 219, 85, 101, 111, 181, 62, 129, 187, 220, 148, 44,
        16, 9, 159, 188, 109, 31, 226, 153, 104, 114, 132, 201, 115, 223, 191, 206] 19 = 0 ∧
      27 < 100 ∧
      ∀ m, m < 27 →
        int_mod (sha3 (List.replicate 32 0 ++ toBytesBE 8 m)) 19 ≠ 0 :=
  find_nonce_for_mod19_correct (List.replicate 32 0) 100 27
    [234, 9, 99, 134, 63, 219, 85, 101, 111, 181, 62, 129, 187, 220, 148, 44,
     16, 9, 159, 188, 109, 31, 226, 153, 104, 114, 132, 201, 115, 223, 191, 206]
    (by decide)

/-- **C5.** `find_nonce_for_mod19` fails (modelled as `none`, the raised
ExhaustionError) iff no nonce in `[0, limit)` passes the mod-19 test; in
particular with `limit = 1` and a root whose nonce-0 digest fails the test
it fails rather than returning a pair. -/
theorem find_nonce_exhaustion_iff (root : Bytes) (limit : Nat) :
    (find_nonce_for_mod19 root limit = none ↔
      ∀ m, m < limit → int_mod (sha3 (root ++ toBytesBE 8 m)) 19 ≠ 0) ∧
      (int_mod (sha3 (root ++ toBytesBE 8 0)) 19 ≠ 0 →
        find_nonce_for_mod19 root 1 = none) := by
  constructor
  · rw [show find_nonce_for_mod19 root limit = findNonceFuel root 0 limit from rfl,
      findNonceFuel_eq_none limit 0]
    exact ⟨fun h m hm => h m (Nat.zero_le m) (by omega),
      fun h m _ hm => h m (by omega)⟩
  · intro h0
    rw [show find_nonce_for_mod19 root 1 = findNonceFuel root 0 1 from rfl,
      findNonceFuel_eq_none 1 0]
    intro m _ hm
    have : m = 0 := by omega
    subst this; exact h0

/-- Witness for C5: the all-zero 32-byte root (whose least sealing nonce is
27, so nonce 0 fails) makes the `limit = 1` search raise. -/
theorem find_nonce_exhaustion_iff_witness :
    find_nonce_for_mod19 (List.replicate 32 0) 1 = none :=
  (find_nonce_exhaustion_iff (List.replicate 32 0) 1).2 (by decide)

/-! ## Lemmas about the Merkle fold -/

lemma nextLayer_length : ∀ l : List Bytes, (nextLayer l).length = (l.length + 1) / 2
  | [] => by simp [nextLayer]
  | [_] => by simp [nextLayer]
  | _ :: _ :: rest => by
    simp only [nextLayer, List.length_cons, nextLayer_length rest]
    omega

/-- Unfolding the loop once on a layer of length at least 2. -/
lemma merkleLoop_succ (fuel : Nat) (layer : List Bytes) (h : 1 < layer.length) :
    merkleLoop (fuel + 1) layer = merkleLoop fuel (nextLayer layer) := by
  simp only [merkleLoop]
  rw [if_pos h]

/-- One unit of fuel beyond `length - 1` does not change the loop result. -/
lemma merkleLoop_fuel_succ :
    ∀ fuel (layer : List Bytes), layer.length ≤ fuel + 1 →
      merkleLoop (fuel + 1) layer = merkleLoop fuel layer := by
  intro fuel
  induction fuel with
  | zero =>
    intro layer hl
    simp only [merkleLoop]
    rw [if_neg (by omega)]
  | succ fuel ih =>
    intro layer hl
    show merkleLoop (fuel + 1 + 1) layer = merkleLoop (fuel + 1) layer
    simp only [merkleLoop]
    by_cases hlen : 1 < layer.length
    · rw [if_pos hlen, if_pos hlen]
      exact ih (nextLayer layer) (by rw [nextLayer_length]; omega)
    · rw [if_neg hlen, if_neg hlen]

/-- Any fuel of at least `length - 1` gives the loop's limit. -/
lemma merkleLoop_fuel_add :
    ∀ k fuel (layer : List Bytes), layer.length ≤ fuel + 1 →
      merkleLoop (fuel + k) layer = merkleLoop fuel layer := by
  intro k
  induction k with
  | zero => intro fuel layer _; rfl
  | succ k ih =>
    intro fuel layer hl
    show merkleLoop (fuel + k + 1) layer = merkleLoop fuel layer
    rw [merkleLoop_fuel_succ (fuel + k) layer (by omega), ih fuel layer hl]

/-- The loop result does not depend on the fuel, once sufficient. -/
lemma merkleLoop_fuel_congr (f g : Nat) (layer : List Bytes)
    (hf : layer.length ≤ f + 1) (hg : layer.length ≤ g + 1) :
    merkleLoop f layer = merkleLoop g layer := by
  rcases Nat.le_total f g with h | h
  · obtain ⟨k, rfl⟩ := Nat.exists_eq_add_of_le h
    rw [merkleLoop_fuel_add k f layer hf]
  · obtain ⟨k, rfl⟩ := Nat.exists_eq_add_of_le h
    rw [merkleLoop_fuel_add k g layer hg]

/-- **C2.** For a layer of at least two digests the root is the root of the
next layer, where the next layer hashes consecutive pairs as
`sha3(left ++ right)` and pairs an odd final element with itself; in
particular the root of `[A, B, C]` is
`sha3(sha3(A ++ B) ++ sha3(C ++ C))`. -/
theorem merkle_root_pairwise_fold (A B C x y : Bytes) (rest : List Bytes)
    (l : List Bytes) (hl : 1 < l.length) :
    merkle_root l = merkle_root (nextLayer l) ∧
      nextLayer (x :: y :: rest) = sha3 (x ++ y) :: nextLayer rest ∧
      nextLayer [x] = [sha3 (x ++ x)] ∧
      merkle_root [A, B, C] = sha3 (sha3 (A ++ B) ++ sha3 (C ++ C)) := by
  refine ⟨?_, rfl, rfl, rfl⟩
  obtain ⟨k, hk⟩ : ∃ k, l.length = k + 2 := ⟨l.length - 2, by omega⟩
  have hne : l.isEmpty = false := by
    cases l with
    | nil => simp at hl
    | cons a t => rfl
  have hne2 : (nextLayer l).isEmpty = false := by
    have := nextLayer_length l
    cases hnl : nextLayer l with
    | nil => rw [hnl] at this; simp at this; omega
    | cons a t => rfl
  simp only [merkle_root, hne, hne2, Bool.false_eq_true, if_false]
  rw [hk]
  show (merkleLoop (k + 1 + 1) l).headD [] = _
  rw [merkleLoop_succ (k + 1) l (by omega)]
  have := nextLayer_length l
  rw [merkleLoop_fuel_congr (k + 1) (nextLayer l).length (nextLayer l)
    (by omega) (by omega)]

/-- Witness for C2 at one-byte leaves. -/
theorem merkle_root_pairwise_fold_witness :
    merkle_root [[5], [6]] = merkle_root (nextLayer [[5], [6]]) ∧
      nextLayer ([3] :: [4] :: []) = sha3 ([3] ++ [4]) :: nextLayer [] ∧
      nextLayer [[3]] = [sha3 ([3] ++ [3])] ∧
      merkle_root [[0], [1], [2]] = sha3 (sha3 ([0] ++ [1]) ++ sha3 ([2] ++ [2])) :=
  merkle_root_pairwise_fold [0] [1] [2] [3] [4] [] [[5], [6]] (by decide)

/-- **C3.** The empty leaf list yields `sha3` of the empty byte string, as a
defined result (not an error). -/
theorem merkle_root_empty : merkle_root [] = sha3 [] := rfl

/-- **C4.** A single-element leaf list is already terminal: the root is the
leaf itself, unmodified. -/
theorem merkle_root_single_leaf (h : Bytes) : merkle_root [h] = h := rfl

/-! ## Lemmas about the manifest builders -/

/-- Characterisation of a successfully built entry. -/
lemma mkEntry_eq_some {name : String} {verses : List Bytes} {e : UnitManifestEntry}
    (h : mkEntry name verses = some e) :
    ∃ nonce sealed,
      find_nonce_for_mod19 (merkle_root (verses.map sha3)) 2000000 = some (nonce, sealed) ∧
      e = UnitManifestEntry.mk name verses.length ((verses.map sha3).map hhex)
        (hhex (merkle_root (verses.map sha3))) nonce (hhex sealed) (int_mod sealed 19) := by
  simp only [mkEntry] at h
  split at h
  next => exact absurd h (by simp)
  next nonce sealed heq =>
    simp only [Option.some.injEq] at h
    exact ⟨nonce, sealed, heq, h.symm⟩

/-- The name packaged into an entry is the unit's name. -/
lemma mkEntry_name {name : String} {verses : List Bytes} {e : UnitManifestEntry}
    (h : mkEntry name verses = some e) : e.name = name := by
  obtain ⟨nonce, sealed, -, rfl⟩ := mkEntry_eq_some h
  rfl

/-- The sealed residue packaged into an entry is 0: the nonce-search
postcondition. -/
lemma mkEntry_mod19 {name : String} {verses : List Bytes} {e : UnitManifestEntry}
    (h : mkEntry name verses = some e) : e.sealed_root_mod19 = 0 := by
  obtain ⟨nonce, sealed, hfind, rfl⟩ := mkEntry_eq_some h
  obtain ⟨-, -, -, hmod, -⟩ := findNonceFuel_eq_some 2000000 0 nonce sealed hfind
  exact hmod

/-- A successful Torah build relates the non-empty units, in order, to the
emitted entries, and prints one warning per empty unit, in order. -/
lemma build_torah_eq_some :
    ∀ (units : List (String × List Bytes)) w es,
      build_torah_entries units = some (w, es) →
      List.Forall₂ (fun u e => mkEntry u.1 u.2 = some e)
        (units.filter fun u => !u.2.isEmpty) es ∧
      w = (units.filter fun u => u.2.isEmpty).map fun u => emptyUnitWarning u.1 := by
  intro units
  induction units with
  | nil =>
    intro w es h
    simp only [build_torah_entries, Option.some.injEq, Prod.mk.injEq] at h
    obtain ⟨rfl, rfl⟩ := h
    exact ⟨List.Forall₂.nil, rfl⟩
  | cons u rest ih =>
    obtain ⟨ref, verses⟩ := u
    intro w es h
    simp only [build_torah_entries] at h
    by_cases hemp : verses.isEmpty
    · rw [if_pos hemp] at h
      cases hrest : build_torah_entries rest with
      | none => rw [hrest] at h; simp at h
      | some p =>
        obtain ⟨wr, esr⟩ := p
        rw [hrest] at h
        simp only [Option.map_some', Option.some.injEq, Prod.mk.injEq] at h
        obtain ⟨hw, hes⟩ := h
        obtain ⟨hf, hwr⟩ := ih wr esr hrest
        subst hw hes
        simp only [List.filter_cons, hemp, Bool.not_true, if_pos, List.map_cons]
        exact ⟨hf, by rw [hwr]⟩
    · rw [if_neg hemp] at h
      cases hme : mkEntry ref verses with
      | none => rw [hme] at h; simp at h
      | some e =>
        rw [hme] at h
        cases hrest : build_torah_entries rest with
        | none => rw [hrest] at h; simp at h
        | some p =>
          obtain ⟨wr, esr⟩ := p
          rw [hrest] at h
          simp only [Option.map_some', Option.some.injEq, Prod.mk.injEq] at h
          obtain ⟨hw, hes⟩ := h
          obtain ⟨hf, hwr⟩ := ih wr esr hrest
          subst hw hes
          have hempb : verses.isEmpty = false := by
            cases hv : verses.isEmpty
            · rfl
            · exact absurd hv hemp
          simp only [List.filter_cons, hempb, Bool.not_false, if_pos, if_neg]
          refine ⟨List.Forall₂.cons hme hf, ?_⟩
          simp [hwr]

/-- A successful Qur'an loop relates the chapters, in order, to the emitted
entries. -/
lemma quranEntriesLoop_eq_some :
    ∀ (l : List (Nat × List Bytes)) es, quranEntriesLoop l = some es →
      List.Forall₂ (fun c e => mkEntry ("Sura " ++ toString c.1) c.2 = some e) l es := by
  intro l
  induction l with
  | nil =>
    intro es h
    simp only [quranEntriesLoop, Option.some.injEq] at h
    subst h
    exact List.Forall₂.nil
  | cons c rest ih =>
    obtain ⟨sura, verses⟩ := c
    intro es h
    simp only [quranEntriesLoop] at h
    cases hme : mkEntry ("Sura " ++ toString sura) verses with
    | none => rw [hme] at h; simp at h
    | some e =>
      rw [hme] at h
      cases hrest : quranEntriesLoop rest with
      | none => rw [hrest] at h; simp at h
      | some esr =>
        rw [hrest] at h
        simp only [Option.map_some', Option.some.injEq] at h
        subst h
        exact List.Forall₂.cons hme (ih esr hrest)

/-- Every element of the right list of a `Forall₂` has a related element in
the left list. -/
lemma forall₂_mem_right {α β : Type} {R : α → β → Prop} :
    ∀ {l₁ : List α} {l₂ : List β}, List.Forall₂ R l₁ l₂ →
      ∀ b ∈ l₂, ∃ a ∈ l₁, R a b := by
  intro l₁ l₂ h
  induction h with
  | nil => intro b hb; simp at hb
  | cons hR hF ih =>
    intro b hb
    rcases List.mem_cons.mp hb with rfl | hb
    · exact ⟨_, List.mem_cons_self _ _, hR⟩
    · obtain ⟨a, ha, hr⟩ := ih b hb
      exact ⟨a, List.mem_cons_of_mem _ ha, hr⟩

/-- Mapping related projections across a `Forall₂`. -/
lemma forall₂_map_eq {α β γ : Type} {R : α → β → Prop} (f : α → γ) (g : β → γ)
    (hfg : ∀ a b, R a b → f a = g b) :
    ∀ {l₁ : List α} {l₂ : List β}, List.Forall₂ R l₁ l₂ → l₁.map f = l₂.map g := by
  intro l₁ l₂ h
  induction h with
  | nil => rfl
  | cons hR hF ih => simp only [List.map_cons, hfg _ _ hR, ih]

/-- **C6.** Every entry emitted by either builder carries
`sealed_root_mod19 = 0`. -/
theorem sealed_root_mod19_always_zero (units : List (String × List Bytes))
    (chapters : List (Nat × List Bytes)) (w : List String)
    (es qes : List UnitManifestEntry)
    (h1 : build_torah_entries units = some (w, es))
    (h2 : build_quran_entries chapters = some qes) :
    (∀ e ∈ es, e.sealed_root_mod19 = 0) ∧ ∀ e ∈ qes, e.sealed_root_mod19 = 0 := by
  constructor
  · intro e he
    obtain ⟨u, -, hme⟩ := forall₂_mem_right (build_torah_eq_some units w es h1).1 e he
    exact mkEntry_mod19 hme
  · intro e he
    obtain ⟨c, -, hme⟩ := forall₂_mem_right (quranEntriesLoop_eq_some _ qes h2) e he
    exact mkEntry_mod19 hme

/-! ### Concrete entries for the closed witnesses

The units are single one-byte verses (`"4"`, `"S"`, `"("`, bytes 52, 83,
40) whose roots happen to seal at nonce 0, keeping the kernel evaluations
small; the field values were cross-checked against the script. -/

def wEntryA : UnitManifestEntry :=
  UnitManifestEntry.mk "A" 1
    ["b410677b84ed73fac43fcf1abd933151dd417d932a0ef9b0260ecf8b7b72ecb9"]
    "b410677b84ed73fac43fcf1abd933151dd417d932a0ef9b0260ecf8b7b72ecb9"
    0 "e8adf9bf81aafd93c96c3a6049f606dcb4b6db7c5bd303178bcb706bbafb6304" 0

def wEntryS1 : UnitManifestEntry :=
  UnitManifestEntry.mk "Sura 1" 1
    ["b410677b84ed73fac43fcf1abd933151dd417d932a0ef9b0260ecf8b7b72ecb9"]
    "b410677b84ed73fac43fcf1abd933151dd417d932a0ef9b0260ecf8b7b72ecb9"
    0 "e8adf9bf81aafd93c96c3a6049f606dcb4b6db7c5bd303178bcb706bbafb6304" 0

def wEntryS2 : UnitManifestEntry :=
  UnitManifestEntry.mk "Sura 2" 1
    ["164a93c6619015a4ed2d50a49c0d98252296e3e4c7fa5277656188edb3fe71b7"]
    "164a93c6619015a4ed2d50a49c0d98252296e3e4c7fa5277656188edb3fe71b7"
    0 "2a9ba4bfdf14f9250bf32b8b4bf0082e72b6bd72adade81f50c25060690c834c" 0

def wEntryU : UnitManifestEntry :=
  UnitManifestEntry.mk "U" 1
    ["71f6371d545b5237edc05a8ea1dcaaf5a18ec336fa6bc847dba2e6b4c841573b"]
    "71f6371d545b5237edc05a8ea1dcaaf5a18ec336fa6bc847dba2e6b4c841573b"
    0 "282ea7bec989dc826457e686df351ad5eeeb040a510215e2f790003462d8a943" 0

/-- Witness for C6: a Torah build with one non-empty and one empty unit,
and a Qur'an build with two chapters. -/
theorem sealed_root_mod19_always_zero_witness :
    (∀ e ∈ [wEntryA], e.sealed_root_mod19 = 0) ∧
      ∀ e ∈ [wEntryS1, wEntryS2], e.sealed_root_mod19 = 0 :=
  sealed_root_mod19_always_zero [("A", [[52]]), ("B", [])]
    [(2, [[83]]), (1, [[52]])] [emptyUnitWarning "B"] [wEntryA] [wEntryS1, wEntryS2]
    (by decide) (by decide)

/-- **C7.** A unit with zero verses makes the Torah builder log a warning
and contribute no entry, and the build of the remaining units proceeds
unchanged; in particular the build fails exactly when the rest of the
build fails. -/
theorem empty_unit_skipped_with_warning (ref : String)
    (rest : List (String × List Bytes)) :
    build_torah_entries ((ref, []) :: rest) =
        (build_torah_entries rest).map (fun p => (emptyUnitWarning ref :: p.1, p.2)) ∧
      (build_torah_entries ((ref, []) :: rest)).isSome =
        (build_torah_entries rest).isSome := by
  refine ⟨rfl, ?_⟩
  show ((build_torah_entries rest).map
    (fun p => (emptyUnitWarning ref :: p.1, p.2))).isSome = _
  cases build_torah_entries rest <;> rfl

/-- **C8.** Entries are emitted in input-unit order: the Torah entries are
named after the sidrot list with empty units omitted, in order, and the
Qur'an entries follow the numerically sorted chapter order (the sorted
chapter list being a permutation of the chapters with ascending sura
keys). -/
theorem entries_in_input_order (units : List (String × List Bytes))
    (chapters : List (Nat × List Bytes)) (w : List String)
    (es qes : List UnitManifestEntry)
    (h1 : build_torah_entries units = some (w, es))
    (h2 : build_quran_entries chapters = some qes) :
    es.map (fun e => e.name) =
        (units.filter fun u => !u.2.isEmpty).map (fun u => u.1) ∧
      qes.map (fun e => e.name) =
        (sortChapters chapters).map (fun c => "Sura " ++ toString c.1) ∧
      List.Perm (sortChapters chapters) chapters ∧
      List.Sorted (fun a b => a ≤ b) ((sortChapters chapters).map fun c => c.1) := by
  refine ⟨?_, ?_, ?_, ?_⟩
  · exact (forall₂_map_eq (fun u => u.1) (fun e => e.name)
      (fun (u : String × List Bytes) (e : UnitManifestEntry) he =>
        (mkEntry_name he).symm) (build_torah_eq_some units w es h1).1).symm
  · exact (forall₂_map_eq (fun c => "Sura " ++ toString c.1) (fun e => e.name)
      (fun (c : Nat × List Bytes) (e : UnitManifestEntry) he =>
        (mkEntry_name he).symm) (quranEntriesLoop_eq_some _ qes h2)).symm
  · exact List.perm_insertionSort _ chapters
  · haveI : IsTotal (Nat × List Bytes) (fun a b => a.1 ≤ b.1) :=
      ⟨fun a b => Nat.le_total a.1 b.1⟩
    haveI : IsTrans (Nat × List Bytes) (fun a b => a.1 ≤ b.1) :=
      ⟨fun a b c hab hbc => Nat.le_trans hab hbc⟩
    have hs : List.Sorted (fun (a b : Nat × List Bytes) => a.1 ≤ b.1)
        (sortChapters chapters) :=
      List.sorted_insertionSort _ chapters
    show List.Pairwise (fun (a b : Nat) => a ≤ b)
      ((sortChapters chapters).map fun c => c.1)
    exact List.Pairwise.map (fun (c : Nat × List Bytes) => c.1)
      (fun (a b : Nat × List Bytes) (hab : a.1 ≤ b.1) => hab) hs

/-- Witness for C8 at the same builds as the C6 witness. -/
theorem entries_in_input_order_witness :
    [wEntryA].map (fun e => e.name) =
        (([("A", [[52]]), ("B", [])] : List (String × List Bytes)).filter
          fun u => !u.2.isEmpty).map (fun u => u.1) ∧
      [wEntryS1, wEntryS2].map (fun e => e.name) =
        (sortChapters [(2, [[83]]), (1, [[52]])]).map
          (fun c => "Sura " ++ toString c.1) ∧
      List.Perm (sortChapters [(2, [[83]]), (1, [[52]])]) [(2, [[83]]), (1, [[52]])] ∧
      List.Sorted (fun a b => a ≤ b)
        ((sortChapters [(2, [[83]]), (1, [[52]])]).map fun c => c.1) :=
  entries_in_input_order [("A", [[52]]), ("B", [])] [(2, [[83]]), (1, [[52]])]
    [emptyUnitWarning "B"] [wEntryA] [wEntryS1, wEntryS2] (by decide) (by decide)

/-! ## Hex-alphabet lemmas and the leaf-order claim -/

/-- The sixteen lowercase hex digits. -/
def hexDigits : List Char := "0123456789abcdef".data

lemma digitChar_mem_hexDigits : ∀ d, d < 16 → Nat.digitChar d ∈ hexDigits := by decide

lemma laneToBytes_lt (w : Nat) : ∀ x ∈ laneToBytes w, x < 256 := by
  intro x hx
  simp only [laneToBytes, List.mem_map, List.mem_range] at hx
  obtain ⟨i, -, rfl⟩ := hx
  exact Nat.mod_lt _ (by norm_num)

/-- Every element of a digest is a byte value. -/
lemma sha3_bytes_lt (msg : Bytes) : ∀ x ∈ sha3 msg, x < 256 := by
  intro x hx
  simp only [sha3, List.mem_append] at hx
  rcases hx with ((hx | hx) | hx) | hx <;> exact laneToBytes_lt _ x hx

/-- The hex encoding of a byte string uses only lowercase hex digits. -/
lemma hhex_chars {b : Bytes} (hb : ∀ x ∈ b, x < 256) :
    ∀ c ∈ (hhex b).data, c ∈ hexDigits := by
  intro c hc
  have hc2 : c ∈ (b.map byteHex).flatten := hc
  simp only [List.mem_flatten, List.mem_map] at hc2
  obtain ⟨cs, ⟨x, hxb, rfl⟩, hcs⟩ := hc2
  have hx := hb x hxb
  simp only [byteHex, List.mem_cons, List.not_mem_nil, or_false] at hcs
  rcases hcs with rfl | rfl
  · exact digitChar_mem_hexDigits _ (Nat.div_lt_of_lt_mul (by omega))
  · exact digitChar_mem_hexDigits _ (Nat.mod_lt _ (by norm_num))

/-- **C9.** In every built entry, the `i`-th hex string is the lowercase
hex encoding of the digest of the `i`-th verse's UTF-8 bytes (leaf order
is verse order), and `verse_count` equals the number of leaf hashes. -/
theorem verse_hashes_follow_verse_order (name : String) (verses : List Bytes)
    (e : UnitManifestEntry) (h : mkEntry name verses = some e) :
    (∀ i, i < verses.length →
      e.verse_hashes_hex[i]? = some (hhex (sha3 (verses.getD i [])))) ∧
      e.verse_count = e.verse_hashes_hex.length ∧
      ∀ s ∈ e.verse_hashes_hex, ∀ c ∈ s.data, c ∈ hexDigits := by
  obtain ⟨nonce, sealed, -, rfl⟩ := mkEntry_eq_some h
  refine ⟨?_, ?_, ?_⟩
  · intro i hi
    show ((verses.map sha3).map hhex)[i]? = _
    simp [List.getElem?_map, List.getElem?_eq_getElem hi, List.getD_eq_getElem?_getD,
      List.getElem?_eq_getElem]
  · show verses.length = ((verses.map sha3).map hhex).length
    simp
  · intro s hs c hc
    have hs2 : s ∈ (verses.map sha3).map hhex := hs
    simp only [List.mem_map] at hs2
    obtain ⟨b, hb, rfl⟩ := hs2
    obtain ⟨v, -, rfl⟩ := hb
    exact hhex_chars (sha3_bytes_lt v) c hc

/-- Witness for C9 at the single-verse unit `"U"`. -/
theorem verse_hashes_follow_verse_order_witness :
    (∀ i, i < ([[40]] : List Bytes).length →
      wEntryU.verse_hashes_hex[i]? =
        some (hhex (sha3 (([[40]] : List Bytes).getD i [])))) ∧
      wEntryU.verse_count = wEntryU.verse_hashes_hex.length ∧
      ∀ s ∈ wEntryU.verse_hashes_hex, ∀ c ∈ s.data, c ∈ hexDigits :=
  verse_hashes_follow_verse_order "U" [[40]] wEntryU (by decide)

/-! ## Lemmas about the heap model -/

lemma getD_set_self (heap : Heap) (i : Nat) (v : List Bytes) (h : i < heap.length) :
    (heap.set i v).getD i [] = v := by
  simp [List.getD_eq_getElem?_getD, List.getElem?_set_self h]

lemma getD_set_ne (heap : Heap) {i j : Nat} (v : List Bytes) (h : i ≠ j) :
    (heap.set i v).getD j [] = heap.getD j [] := by
  simp [List.getD_eq_getElem?_getD, List.getElem?_set_ne h]

lemma getD_append_left {heap heap2 : Heap} {i : Nat} (h : i < heap.length) :
    (heap ++ heap2).getD i [] = heap.getD i [] := by
  simp [List.getD_eq_getElem?_getD, List.getElem?_append_left h]

lemma getD_append_self (heap : Heap) (v : List Bytes) :
    (heap ++ [v]).getD heap.length [] = v := by
  simp [List.getD_eq_getElem?_getD,
    List.getElem?_append_right (Nat.le_refl heap.length)]

/-- The `for` loop writes exactly `nextLayer layer` onto the end of the
`nxt` cell and touches nothing else. -/
lemma appendPairs_eq :
    ∀ (layer : List Bytes) (heap : Heap) (addr : Nat), addr < heap.length →
      appendPairs heap addr layer =
        heap.set addr (heap.getD addr [] ++ nextLayer layer)
  | [], heap, addr => by
    intro h
    show heap = _
    rw [nextLayer, List.append_nil]
    apply List.ext_getElem?
    intro i
    by_cases hia : addr = i
    · subst hia
      rw [List.getElem?_set_self h, List.getElem?_eq_getElem h]
      simp [List.getD_eq_getElem?_getD, List.getElem?_eq_getElem h]
    · rw [List.getElem?_set_ne hia]
  | [x], heap, addr => by
    intro h
    rfl
  | x :: y :: rest, heap, addr => by
    intro h
    show appendPairs (heap.set addr (heap.getD addr [] ++ [sha3 (x ++ y)])) addr rest = _
    rw [appendPairs_eq rest (heap.set addr (heap.getD addr [] ++ [sha3 (x ++ y)])) addr
      (by simpa using h)]
    rw [getD_set_self heap addr _ h, List.set_set, List.append_assoc]
    rfl

/-- The loop only reaches the layer if the condition fails. -/
lemma merkleLoop_stop (fuel : Nat) (layer : List Bytes)
    (h : ¬ 1 < layer.length) : merkleLoop fuel layer = layer := by
  cases fuel with
  | zero => rfl
  | succ fuel => simp only [merkleLoop]; rw [if_neg h]

/-- Invariant of the heap loop: cells below `n` are untouched, the final
layer address stays at or above `n` and in bounds, and its cell holds the
value of the pure loop. -/
lemma merkleLoopH_spec :
    ∀ fuel (heap : Heap) (layerAddr n : Nat), n ≤ layerAddr → layerAddr < heap.length →
      (∀ a, a < n → (merkleLoopH fuel heap layerAddr).1.getD a [] = heap.getD a []) ∧
      n ≤ (merkleLoopH fuel heap layerAddr).2 ∧
      (merkleLoopH fuel heap layerAddr).2 < (merkleLoopH fuel heap layerAddr).1.length ∧
      (merkleLoopH fuel heap layerAddr).1.getD (merkleLoopH fuel heap layerAddr).2 [] =
        merkleLoop fuel (heap.getD layerAddr []) := by
  intro fuel
  induction fuel with
  | zero =>
    intro heap layerAddr n hn hlt
    exact ⟨fun a _ => rfl, hn, hlt, rfl⟩
  | succ fuel ih =>
    intro heap layerAddr n hn hlt
    by_cases hc : 1 < (heap.getD layerAddr []).length
    · have hstep :
          merkleLoopH (fuel + 1) heap layerAddr =
            merkleLoopH fuel (appendPairs (heap ++ [[]]) heap.length
              (heap.getD layerAddr [])) heap.length := by
        simp only [merkleLoopH]
        rw [if_pos hc]
      have hcell : appendPairs (heap ++ [[]]) heap.length (heap.getD layerAddr []) =
          (heap ++ [[]]).set heap.length (nextLayer (heap.getD layerAddr [])) := by
        rw [appendPairs_eq _ _ _ (by simp), getD_append_self]
        simp
      rw [hstep, hcell]
      have hlen : ((heap ++ [[]]).set heap.length
          (nextLayer (heap.getD layerAddr []))).length = heap.length + 1 := by simp
      obtain ⟨ihf, ihn, ihlt, ihroot⟩ := ih
        ((heap ++ [[]]).set heap.length (nextLayer (heap.getD layerAddr [])))
        heap.length n (by omega) (by omega)
      refine ⟨?_, by omega, ihlt, ?_⟩
      · intro a ha
        rw [ihf a ha, getD_set_ne _ _ (by omega), getD_append_left (by omega)]
      · rw [ihroot, getD_set_self _ _ _ (by simp),
          merkleLoop_succ fuel (heap.getD layerAddr []) hc]
    · have hstep : merkleLoopH (fuel + 1) heap layerAddr = (heap, layerAddr) := by
        simp only [merkleLoopH]
        rw [if_neg hc]
      rw [hstep, merkleLoop_stop (fuel + 1) _ hc]
      exact ⟨fun a _ => rfl, hn, hlt, rfl⟩

/-- **C10.** `merkle_root` does not mutate its argument (nor any other
pre-existing list object): in the heap model every pre-existing cell is
unchanged after the call, and the returned root is the pure
`merkle_root` of the argument's value. -/
theorem merkle_root_preserves_input (heap : Heap) (addr : Nat) :
    (∀ a, a < heap.length →
      (merkleRootH heap addr).1.getD a [] = heap.getD a []) ∧
      (merkleRootH heap addr).2 = merkle_root (heap.getD addr []) := by
  by_cases hemp : (heap.getD addr []).isEmpty
  · have hval : merkleRootH heap addr = (heap, sha3 []) := by
      simp only [merkleRootH]
      rw [if_pos hemp]
    rw [hval]
    refine ⟨fun a _ => rfl, ?_⟩
    simp only [merkle_root]
    rw [if_pos hemp]
  · have hval : merkleRootH heap addr =
        ((merkleLoopH (heap.getD addr []).length
            (heap ++ [heap.getD addr []]) heap.length).1,
          ((merkleLoopH (heap.getD addr []).length
              (heap ++ [heap.getD addr []]) heap.length).1.getD
            (merkleLoopH (heap.getD addr []).length
              (heap ++ [heap.getD addr []]) heap.length).2 []).headD []) := by
      simp only [merkleRootH]
      rw [if_neg hemp]
    obtain ⟨hframe, -, -, hroot⟩ := merkleLoopH_spec (heap.getD addr []).length
      (heap ++ [heap.getD addr []]) heap.length heap.length (Nat.le_refl _) (by simp)
    rw [hval]
    constructor
    · intro a ha
      rw [hframe a ha, getD_append_left ha]
    · rw [hroot, getD_append_self]
      simp only [merkle_root]
      rw [if_neg hemp]

/-- Witness for C10 at a two-cell heap whose cell 0 holds three leaves. -/
theorem merkle_root_preserves_input_witness :
    (∀ a, a < ([[[1], [2], [3]], [[9]]] : Heap).length →
      (merkleRootH [[[1], [2], [3]], [[9]]] 0).1.getD a [] =
        ([[[1], [2], [3]], [[9]]] : Heap).getD a []) ∧
      (merkleRootH [[[1], [2], [3]], [[9]]] 0).2 =
        merkle_root (([[[1], [2], [3]], [[9]]] : Heap).getD 0 []) :=
  merkle_root_preserves_input [[[1], [2], [3]], [[9]]] 0

end Manifest
